import Mathlib

/-!
Verification of the Huffman codec implemented twice in this repository,
in `DSA_CEP.py` and in `Final_CEP.py` (class `HuffmanCoding`).

Symbols are `Char`, bit-strings (Python strings of '0'/'1') are `List Bool`
(`false` = '0', `true` = '1').  Python dicts are modelled as insertion-ordered
association lists with in-place update on an existing key (`alInsert`,
`alIncr`), which is exactly CPython's observable dict behaviour for the
operations these programs perform (item assignment, `in`, subscript lookup,
`.items()` iteration).  The `heapq` module is modelled function by function
after CPython's `heapq.py` (`_siftdown`, `_siftup`, `heappush`, `heappop`,
`heapify`); the loops are written with an explicit structural counter whose
initial value provably dominates the number of iterations and whose exhaustion
case coincides with the loop's exit action, so each model is extensionally the
CPython loop and still computes by kernel reduction.
-/

/-- A bit of an encoded payload: `false` is the character '0', `true` is '1'. -/
abbrev BitString := List Bool

/-- A Python `dict` mapping symbols to their Huffman codes. -/
abbrev CodeMap := List (Char × BitString)

/-- Item assignment `d[k] = v` on a Python dict: update in place when the key
is present, append otherwise. -/
def alInsert {κ ν : Type} [DecidableEq κ] (k : κ) (v : ν) : List (κ × ν) → List (κ × ν)
  | [] => [(k, v)]
  | (k2, v2) :: rest => if k2 = k then (k, v) :: rest else (k2, v2) :: alInsert k v rest

/-- Subscript lookup `d[k]` on a Python dict, `none` modelling `KeyError`. -/
def alGet {κ ν : Type} [DecidableEq κ] (k : κ) : List (κ × ν) → Option ν
  | [] => none
  | (k2, v2) :: rest => if k2 = k then some v2 else alGet k rest

/-- The counting idiom of `build_frequency_table` (and of `collections.Counter`):
`d[k] = 0` if absent, then `d[k] += 1`. -/
def alIncr {κ : Type} [DecidableEq κ] (k : κ) : List (κ × Nat) → List (κ × Nat)
  | [] => [(k, 1)]
  | (k2, v2) :: rest => if k2 = k then (k2, v2 + 1) :: rest else (k2, v2) :: alIncr k rest

/-- Python `"{0:08b}".format(n)` for `n < 2^w` with `w = 8`: the `w`-digit
big-endian binary representation of `n` (both programs only format the value
`(8 - len % 8) % 8 < 8 < 2^8`). -/
def natToBits : Nat → Nat → BitString
  | 0, _ => []
  | w + 1, n => natToBits w (n / 2) ++ [n % 2 == 1]

/-- Python `int(s, 2)` on a non-empty string of '0'/'1' characters. -/
def bitsToNat (bits : BitString) : Nat :=
  bits.foldl (fun acc b => 2 * acc + (if b then 1 else 0)) 0

/-- The dict comprehension `{v: k for k, v in codes.items()}` building the
inverse map for decoding, in both `huffman_decoding` and `decode_text`:
later items silently overwrite earlier ones sharing a bit-string. -/
def buildReverse (codes : CodeMap) : List (BitString × Char) :=
  codes.foldl (fun rev p => alInsert p.2 p.1 rev) []

/-- The `Node` class of both files.  The programs only ever construct leaves
(`char` set, no children) via the heap initialisation and internal nodes
(`char = None`, two children) via merging, so the tree is the tagged variant
below; `generate_codes` distinguishes the two shapes by `node.char is not None`. -/
inductive Node where
  | leaf : Char → Nat → Node
  | internal : Nat → Node → Node → Node
deriving DecidableEq

instance : Inhabited Node := ⟨Node.leaf 'a' 0⟩

/-- The `freq` attribute. -/
def Node.freq : Node → Nat
  | .leaf _ f => f
  | .internal f _ _ => f

/-- `Node.__lt__`: comparison by frequency only. -/
def Node.lt (a b : Node) : Bool := a.freq < b.freq

/-- The characters at the leaves, in left-to-right order. -/
def Node.leaves : Node → List Char
  | .leaf c _ => [c]
  | .internal _ l r => l.leaves ++ r.leaves

/-- Each leaf's character with its root-to-leaf path ('0' = left, '1' = right),
in left-to-right traversal order. -/
def Node.paths : Node → List (Char × BitString)
  | .leaf c _ => [(c, [])]
  | .internal _ l r =>
      l.paths.map (fun p => (p.1, false :: p.2)) ++ r.paths.map (fun p => (p.1, true :: p.2))

/-- Every internal node's stored frequency is the sum of its children's. -/
def Node.freqOk : Node → Bool
  | .leaf _ _ => true
  | .internal f l r => (f == l.freq + r.freq) && l.freqOk && r.freqOk

/-! ### CPython `heapq` on lists of `Node`

`sdGo`/`suGo` are the loops of `_siftdown`/`_siftup`.  The counter of `sdGo`
dominates `pos` (each iteration replaces `pos` by `(pos - 1) / 2 < pos`), so
when it reaches `0` we have `pos = 0` and the exhaustion action `set pos
newitem` is the loop's own exit action.  Likewise `suGo`'s counter dominates
`heap.length - pos` (each iteration moves `pos` to a strictly larger child
position `< heap.length`), so exhaustion implies `2*pos+1 ≥ heap.length`,
again coinciding with the exit. -/

/-- Loop of `heapq._siftdown` (bubble `newitem` toward the root). -/
def sdGo (newitem : Node) (startpos : Nat) : Nat → List Node → Nat → List Node
  | 0, heap, pos => heap.set pos newitem
  | fuel + 1, heap, pos =>
    if startpos < pos then
      let parentpos := (pos - 1) / 2
      let parent := heap.getD parentpos default
      if Node.lt newitem parent then
        sdGo newitem startpos fuel (heap.set pos parent) parentpos
      else heap.set pos newitem
    else heap.set pos newitem

/-- `heapq._siftdown(heap, startpos, pos)`. -/
def siftdown (heap : List Node) (startpos pos : Nat) : List Node :=
  sdGo (heap.getD pos default) startpos pos heap pos

/-- Loop of `heapq._siftup` (move the hole at `pos` down to a leaf, returning
the final hole position). -/
def suGo : Nat → List Node → Nat → List Node × Nat
  | 0, heap, pos => (heap, pos)
  | fuel + 1, heap, pos =>
    let endpos := heap.length
    let childpos := 2 * pos + 1
    if childpos < endpos then
      let rightpos := childpos + 1
      let cp :=
        if rightpos < endpos ∧ Node.lt (heap.getD childpos default) (heap.getD rightpos default) = false
        then rightpos else childpos
      suGo fuel (heap.set pos (heap.getD cp default)) cp
    else (heap, pos)

/-- `heapq._siftup(heap, pos)`. -/
def siftup (heap : List Node) (pos : Nat) : List Node :=
  let newitem := heap.getD pos default
  let hp := suGo heap.length heap pos
  sdGo newitem pos hp.2 (hp.1.set hp.2 newitem) hp.2

/-- `heapq.heappush`. -/
def heappush (heap : List Node) (item : Node) : List Node :=
  siftdown (heap ++ [item]) 0 heap.length

/-- `heapq.heappop`; `none` models the `IndexError` on an empty heap. -/
def heappop : List Node → Option (Node × List Node)
  | [] => none
  | x :: xs =>
    let lastelt := (x :: xs).getLast (List.cons_ne_nil x xs)
    match (x :: xs).dropLast with
    | [] => some (lastelt, [])
    | r0 :: rtail => some (r0, siftup ((r0 :: rtail).set 0 lastelt) 0)

/-- The countdown `for i in reversed(range(n // 2)): _siftup(x, i)`. -/
def heapifyFrom : Nat → List Node → List Node
  | 0, heap => heap
  | i + 1, heap => heapifyFrom i (siftup heap i)

/-- `heapq.heapify`. -/
def heapify (x : List Node) : List Node := heapifyFrom (x.length / 2) x

/-- The merging loop `while len(heap) > 1` shared verbatim by the two
`build_huffman_tree` functions; the counter dominates `heap.length - 1`
(each iteration pops twice and pushes once), so its exhaustion case
coincides with the loop exit `len(heap) ≤ 1`. -/
def buildLoopGo : Nat → List Node → List Node
  | 0, heap => heap
  | fuel + 1, heap =>
    if 1 < heap.length then
      match heappop heap with
      | none => heap
      | some (left, h1) =>
        match heappop h1 with
        | none => h1
        | some (right, h2) =>
          buildLoopGo fuel (heappush h2 (Node.internal (left.freq + right.freq) left right))
    else heap

/-- The tree-merging loop, entered with the heapified leaf list. -/
def buildLoop (heap : List Node) : List Node := buildLoopGo heap.length heap

/-! ### The `HuffmanCoding` class of `Final_CEP.py` -/

namespace Final

/-- `HuffmanCoding.build_frequency_table`. -/
def build_frequency_table (text : List Char) : List (Char × Nat) :=
  text.foldl (fun freq ch => alIncr ch freq) []

/-- `HuffmanCoding.build_huffman_tree` (early `None` on an empty table, then
heapify the leaves and run the merging loop; `heap[0]` is the root). -/
def build_huffman_tree (freq_table : List (Char × Nat)) : Option Node :=
  if freq_table.isEmpty then none
  else (buildLoop (heapify (freq_table.map fun p => Node.leaf p.1 p.2))).head?

/-- Recursion of `HuffmanCoding.generate_codes` on an actual node: a leaf
(`char is not None`) records `code`, replacing an empty accumulated code by
"0"; an internal node recurses left with `code + "0"` then right with
`code + "1"` on the shared dict. -/
def generate_codes_aux : Node → BitString → CodeMap → CodeMap
  | Node.leaf c _, code, codes => alInsert c (if code.isEmpty then [false] else code) codes
  | Node.internal _ l r, code, codes =>
      generate_codes_aux r (code ++ [true]) (generate_codes_aux l (code ++ [false]) codes)

/-- `HuffmanCoding.generate_codes` (`node` may be `None`, as when the tree
builder returned `None`). -/
def generate_codes (node : Option Node) (code : BitString) (codes : CodeMap) : CodeMap :=
  match node with
  | none => codes
  | some n => generate_codes_aux n code codes

/-- `HuffmanCoding.encode_text`: `"".join(codes[ch] for ch in text)`, with
`none` modelling the `KeyError` on a symbol absent from `codes`. -/
def encode_text : List Char → CodeMap → Option BitString
  | [], _ => some []
  | ch :: rest, codes =>
    match alGet ch codes, encode_text rest codes with
    | some w, some tail => some (w ++ tail)
    | _, _ => none

/-- `HuffmanCoding.pad_encoded`: returns the padded payload and the padding
count `extra`. -/
def pad_encoded (encoded : BitString) : BitString × Nat :=
  let extra := (8 - encoded.length % 8) % 8
  let padded_info := natToBits 8 extra
  (padded_info ++ (encoded ++ List.replicate extra false), extra)

/-- `HuffmanCoding.remove_padding`; `none` models the `ValueError` of
`int("", 2)` when the payload is empty (the function performs no other
validation: slicing below silently truncates). -/
def remove_padding (encoded_data : BitString) : Option BitString :=
  let padded_info := encoded_data.take 8
  if padded_info.isEmpty then none
  else
    let extra_padding := bitsToNat padded_info
    let rest := encoded_data.drop 8
    some (if 0 < extra_padding then rest.take (rest.length - extra_padding) else rest)

/-- The bit-consuming loop of `HuffmanCoding.decode_text`: append each bit to
`current` and emit-and-reset whenever `current` is a key of the inverse map. -/
def decodeLoop (reverse_codes : List (BitString × Char)) : BitString → BitString → List Char
  | _, [] => []
  | current, bit :: rest =>
    let cur := current ++ [bit]
    match alGet cur reverse_codes with
    | some ch => ch :: decodeLoop reverse_codes [] rest
    | none => decodeLoop reverse_codes cur rest

/-- `HuffmanCoding.decode_text`. -/
def decode_text (encoded_data : BitString) (codes : CodeMap) : List Char :=
  decodeLoop (buildReverse codes) [] encoded_data

/-- The encode pipeline of `Final_CEP.py` (as run by `compress_file` and the
compress tab): frequency table, tree, codes, encode, pad; the payload is the
first component of `pad_encoded`. -/
def compress (text : List Char) : Option BitString :=
  let freq_table := build_frequency_table text
  let root := build_huffman_tree freq_table
  let codes := generate_codes root [] []
  (encode_text text codes).map (fun encoded => (pad_encoded encoded).1)

/-- The code map the encode pipeline derives from `text`. -/
def pipeline_codes (text : List Char) : CodeMap :=
  generate_codes (build_huffman_tree (build_frequency_table text)) [] []

/-- The decode pipeline of `Final_CEP.py` (as run by `decompress_file` and the
decompress tab): strip the padding, then decode. -/
def decompress (payload : BitString) (codes : CodeMap) : Option (List Char) :=
  (remove_padding payload).map (fun bits => decode_text bits codes)

end Final

/-! ### The module-level functions of `DSA_CEP.py` -/

namespace DSA

/-- Recursion of `generate_codes` on an actual node: a leaf records
`current_code` as is (there is no empty-code replacement in this file);
an internal node recurses left with `current_code + "0"` then right with
`current_code + "1"` (the recursive calls on a leaf's `None` children
return the dict unchanged). -/
def generate_codes_aux : Node → BitString → CodeMap → CodeMap
  | Node.leaf c _, current_code, codes => alInsert c current_code codes
  | Node.internal _ l r, current_code, codes =>
      generate_codes_aux r (current_code ++ [true]) (generate_codes_aux l (current_code ++ [false]) codes)

/-- `generate_codes` of `DSA_CEP.py`. -/
def generate_codes (node : Option Node) (current_code : BitString) (codes : CodeMap) : CodeMap :=
  match node with
  | none => codes
  | some n => generate_codes_aux n current_code codes

/-- `build_huffman_tree` of `DSA_CEP.py`: `heap[0] if heap else None`. -/
def build_huffman_tree (freq_table : List (Char × Nat)) : Option Node :=
  (buildLoop (heapify (freq_table.map fun p => Node.leaf p.1 p.2))).head?

/-- `pad_encoded_data` of `DSA_CEP.py`. -/
def pad_encoded_data (encoded_data : BitString) : BitString :=
  let extra_padding := (8 - encoded_data.length % 8) % 8
  let padded_info := natToBits 8 extra_padding
  padded_info ++ (encoded_data ++ List.replicate extra_padding false)

/-- The bit-consuming loop of `huffman_decoding` (identical in shape to the
loop of `Final_CEP.py`'s `decode_text`). -/
def decodeLoop (reverse_codes : List (BitString × Char)) : BitString → BitString → List Char
  | _, [] => []
  | current, bit :: rest =>
    let cur := current ++ [bit]
    match alGet cur reverse_codes with
    | some ch => ch :: decodeLoop reverse_codes [] rest
    | none => decodeLoop reverse_codes cur rest

/-- `huffman_decoding` of `DSA_CEP.py`: parse the 8-bit header, strip it,
drop the declared padding from the end (Python's `s[:-k]`, which yields `""`
whenever `k ≥ len(s)`), build the inverse map and run the loop.  `none`
models the `ValueError` of `int("", 2)` on an empty payload; there is no
other validation. -/
def huffman_decoding (encoded_data : BitString) (codes : CodeMap) : Option (List Char) :=
  let padded_info := encoded_data.take 8
  if padded_info.isEmpty then none
  else
    let extra_padding := bitsToNat padded_info
    let rest0 := encoded_data.drop 8
    let rest := if 0 < extra_padding then rest0.take (rest0.length - extra_padding) else rest0
    some (decodeLoop (buildReverse codes) [] rest)

end DSA

/-! ### Bit-string arithmetic -/

theorem natToBits_length (w n : Nat) : (natToBits w n).length = w := by
  induction w generalizing n with
  | zero => rfl
  | succ w ih => simp [natToBits, ih]

theorem bitsToNat_append_single (bits : BitString) (b : Bool) :
    bitsToNat (bits ++ [b]) = 2 * bitsToNat bits + (if b then 1 else 0) := by
  simp [bitsToNat, List.foldl_append]

theorem bitsToNat_natToBits {w n : Nat} (h : n < 2 ^ w) :
    bitsToNat (natToBits w n) = n := by
  induction w generalizing n with
  | zero =>
      interval_cases n
      rfl
  | succ w ih =>
      have hdiv : n / 2 < 2 ^ w := by
        have h2 : 2 ^ (w + 1) = 2 ^ w * 2 := by ring
        omega
      have hmod := Nat.mod_two_eq_zero_or_one n
      have hdm := Nat.div_add_mod n 2
      rcases hmod with h0 | h1
      · simp [natToBits, bitsToNat_append_single, ih hdiv, h0]
        omega
      · simp [natToBits, bitsToNat_append_single, ih hdiv, h1]
        omega

theorem natToBits_ne_nil (n : Nat) : natToBits 8 n ≠ [] := by
  intro h
  have := natToBits_length 8 n
  rw [h] at this
  simp at this

/-! ### Padding -/

theorem pad_encoded_data_eq (B : BitString) :
    DSA.pad_encoded_data B
      = natToBits 8 ((8 - B.length % 8) % 8) ++ B ++ List.replicate ((8 - B.length % 8) % 8) false := by
  simp [DSA.pad_encoded_data]

theorem pad_encoded_eq (B : BitString) :
    Final.pad_encoded B = (DSA.pad_encoded_data B, (8 - B.length % 8) % 8) := rfl

theorem pad_take_header (B : BitString) :
    (DSA.pad_encoded_data B).take 8 = natToBits 8 ((8 - B.length % 8) % 8) := by
  rw [pad_encoded_data_eq, List.append_assoc]
  exact List.take_left' (natToBits_length 8 _)

theorem pad_drop_header (B : BitString) :
    (DSA.pad_encoded_data B).drop 8 = B ++ List.replicate ((8 - B.length % 8) % 8) false := by
  rw [pad_encoded_data_eq, List.append_assoc]
  exact List.drop_left' (natToBits_length 8 _)

theorem pad_length_mod (B : BitString) : (DSA.pad_encoded_data B).length % 8 = 0 := by
  rw [pad_encoded_data_eq]
  simp only [List.length_append, natToBits_length, List.length_replicate]
  omega

/-- Stripping the padding recovers exactly the bit-string that was padded. -/
theorem remove_padding_pad (B : BitString) :
    Final.remove_padding ((Final.pad_encoded B).1) = some B := by
  have hex : (8 - B.length % 8) % 8 < 2 ^ 8 := by omega
  have htake := pad_take_header B
  have hdrop := pad_drop_header B
  rw [pad_encoded_eq]
  simp only [Final.remove_padding, htake, hdrop]
  rw [if_neg (by simp [List.isEmpty_iff, natToBits_ne_nil])]
  rw [bitsToNat_natToBits hex]
  rcases Nat.eq_zero_or_pos ((8 - B.length % 8) % 8) with h0 | hpos
  · simp [h0]
  · rw [if_pos hpos]
    simp only [List.length_append, List.length_replicate, Nat.add_sub_cancel]
    simp [List.take_left' rfl]

/-! ### The two decode loops agree -/

theorem decodeLoop_eq (rev : List (BitString × Char)) :
    ∀ (bits current : BitString), DSA.decodeLoop rev current bits = Final.decodeLoop rev current bits := by
  intro bits
  induction bits with
  | nil => intro current; rfl
  | cons b rest ih =>
      intro current
      simp only [DSA.decodeLoop, Final.decodeLoop]
      cases alGet (current ++ [b]) rev with
      | none => exact ih _
      | some ch => simp [ih]

/-! ### Claim theorems: padding and implementation agreement -/

/-- C3.  For every bit-string `B`, the padded payload is the 8-bit big-endian
header for `extra = (8 - len(B) mod 8) mod 8`, followed by `B`, followed by
`extra` zero bits; its total length is divisible by 8 and its first 8 bits
parse back to `extra`; `Final_CEP`'s `pad_encoded` produces the same payload
and reports that `extra`. -/
theorem padding_correct (B : BitString) :
    DSA.pad_encoded_data B
        = natToBits 8 ((8 - B.length % 8) % 8) ++ B ++ List.replicate ((8 - B.length % 8) % 8) false
      ∧ (DSA.pad_encoded_data B).length % 8 = 0
      ∧ bitsToNat ((DSA.pad_encoded_data B).take 8) = (8 - B.length % 8) % 8
      ∧ Final.pad_encoded B = (DSA.pad_encoded_data B, (8 - B.length % 8) % 8) := by
  refine ⟨pad_encoded_data_eq B, pad_length_mod B, ?_, pad_encoded_eq B⟩
  rw [pad_take_header]
  exact bitsToNat_natToBits (by omega)

/-- C2 counterexample.  `DSA_CEP.py`'s `generate_codes` on a tree whose root is
the single leaf `'a'` binds `'a'` to the empty bit-string, not to "0". -/
theorem single_leaf_empty_code_dsa :
    DSA.generate_codes (some (Node.leaf 'a' 1)) [] [] = [('a', ([] : BitString))] := by
  decide

/-- C2 amended.  On a tree whose root is a leaf, `Final_CEP.py`'s
`generate_codes` binds the symbol to the one-bit code "0", while `DSA_CEP.py`'s
`generate_codes` binds it to the empty string (that file's caller special-cases
single-symbol input instead of relying on its generator). -/
theorem single_leaf_code (c : Char) (f : Nat) :
    Final.generate_codes (some (Node.leaf c f)) [] [] = [(c, [false])]
      ∧ DSA.generate_codes (some (Node.leaf c f)) [] [] = [(c, ([] : BitString))] := by
  exact ⟨rfl, rfl⟩

/-- C10.  The two decode pipelines agree on every payload of at least 8 bits
(`huffman_decoding` equals `remove_padding` followed by `decode_text`), and the
two padding functions produce identical payloads on every bit-string. -/
theorem implementations_agree :
    (∀ (payload : BitString) (codes : CodeMap), 8 ≤ payload.length →
        DSA.huffman_decoding payload codes
          = (Final.remove_padding payload).map (fun bits => Final.decode_text bits codes))
      ∧ ∀ B : BitString, DSA.pad_encoded_data B = (Final.pad_encoded B).1 := by
  constructor
  · intro payload codes hlen
    have hne : (payload.take 8).isEmpty = false := by
      have : (payload.take 8).length = 8 := by
        simp [List.length_take]
        omega
      simp [List.isEmpty_iff]
      intro h
      rw [h] at this
      simp at this
    simp only [DSA.huffman_decoding, Final.remove_padding, hne, Bool.false_eq_true,
      if_false, Option.map_some, Final.decode_text]
    rw [decodeLoop_eq]
    rfl
  · intro B
    rfl

/-- C10 witness: the agreement at a concrete 8-bit payload and one-entry map. -/
theorem implementations_agree_witness :
    8 ≤ (List.replicate 8 false).length
      ∧ DSA.huffman_decoding (List.replicate 8 false) [('a', [false])]
          = (Final.remove_padding (List.replicate 8 false)).map
              (fun bits => Final.decode_text bits [('a', [false])]) :=
  ⟨by decide, implementations_agree.1 (List.replicate 8 false) [('a', [false])] (by decide)⟩

/-! ### The greedy decode loop -/

/-- Scanning the bits of a dictionary key `w` none of whose proper non-empty
prefixes is a key: the loop stays silent until the last bit of `w`, then emits
the bound symbol and resets. -/
theorem decodeLoop_scan (rev : List (BitString × Char)) (s : Char) (w rest : BitString)
    (hmatch : alGet w rev = some s)
    (hpfx : ∀ p, p ≠ [] → p <+: w → p ≠ w → alGet p rev = none) :
    ∀ (w2 w1 : BitString), w1 ++ w2 = w → w2 ≠ [] →
      Final.decodeLoop rev w1 (w2 ++ rest) = s :: Final.decodeLoop rev [] rest := by
  intro w2
  induction w2 with
  | nil => intro w1 _ hne; exact absurd rfl hne
  | cons b t ih =>
      intro w1 hw _
      cases t with
      | nil =>
          have hcur : w1 ++ [b] = w := hw
          simp only [List.cons_append, List.nil_append, Final.decodeLoop, hcur, hmatch]
          rfl
      | cons t0 ts =>
          have hcur : (w1 ++ [b]) ++ (t0 :: ts) = w := by
            rw [List.append_assoc]; exact hw
          have hne1 : w1 ++ [b] ≠ [] := by simp
          have hpre : (w1 ++ [b]) <+: w := ⟨t0 :: ts, hcur⟩
          have hneq : w1 ++ [b] ≠ w := by
            intro h
            have := congrArg List.length hcur
            rw [h] at this
            simp at this
          have hnone := hpfx (w1 ++ [b]) hne1 hpre hneq
          simp only [List.cons_append, Final.decodeLoop, hnone]
          exact ih (w1 ++ [b]) hcur (by simp)

/-- Decoding the concatenation of dictionary keys, each matching its symbol
and having no proper non-empty prefix in the dictionary, yields the symbols. -/
theorem decodeLoop_flatMap (rev : List (BitString × Char)) (code : Char → BitString) :
    ∀ S : List Char,
      (∀ s ∈ S, code s ≠ [] ∧ alGet (code s) rev = some s ∧
        ∀ p, p ≠ [] → p <+: code s → p ≠ code s → alGet p rev = none) →
      Final.decodeLoop rev [] (S.flatMap code) = S := by
  intro S
  induction S with
  | nil => intro _; rfl
  | cons s S ih =>
      intro h
      obtain ⟨hne, hmatch, hpfx⟩ := h s (by simp)
      rw [List.flatMap_cons]
      rw [decodeLoop_scan rev s (code s) (S.flatMap code) hmatch hpfx (code s) []
        (by simp) hne]
      rw [ih (fun x hx => h x (by simp [hx]))]

/-! ### Claim theorems: missing decode validation -/

/-- C4 counterexample.  A 12-bit payload whose header declares 9 padding bits
(more than the 4 remaining) decodes without any error to the empty sequence —
the declared padding silently truncates everything; and a 3-bit payload (too
short to even hold the header) is also accepted by `remove_padding`. -/
theorem decode_accepts_malformed :
    DSA.huffman_decoding (natToBits 8 9 ++ [false, false, false, false]) [('a', [false])]
        = some []
      ∧ Final.remove_padding [false, false, false] = some [] := by
  constructor <;> decide

/-- C4 amended.  Neither decoder validates the payload: decoding fails only on
the entirely empty payload (the `int("", 2)` error); every non-empty payload
is accepted, a payload of 1–7 bits parses all its bits as the header and
yields the empty result, and a header declaring more padding than the
remaining length silently truncates the remainder to nothing and yields the
empty result. -/
theorem decode_no_padding_validation :
    (∀ (payload : BitString) (codes : CodeMap), payload ≠ [] →
        (DSA.huffman_decoding payload codes).isSome = true)
      ∧ (∀ (payload : BitString) (codes : CodeMap), payload ≠ [] → payload.length ≤ 7 →
          DSA.huffman_decoding payload codes = some [])
      ∧ (∀ (payload : BitString) (codes : CodeMap), 8 ≤ payload.length →
          payload.length - 8 < bitsToNat (payload.take 8) →
          DSA.huffman_decoding payload codes = some [])
      ∧ ∀ codes : CodeMap, DSA.huffman_decoding [] codes = none := by
  have hne : ∀ payload : BitString, payload ≠ [] → (payload.take 8).isEmpty = false := by
    intro payload h
    cases payload with
    | nil => exact absurd rfl h
    | cons b t => simp [List.take]
  refine ⟨?_, ?_, ?_, fun codes => rfl⟩
  · intro payload codes h
    simp [DSA.huffman_decoding, hne payload h]
  · intro payload codes h hlen
    have hdrop : payload.drop 8 = [] := List.drop_eq_nil_of_le (by omega)
    simp only [DSA.huffman_decoding, hne payload h, Bool.false_eq_true, if_false, hdrop]
    rcases Nat.eq_zero_or_pos (bitsToNat (payload.take 8)) with h0 | hpos
    · simp [h0, DSA.decodeLoop]
    · simp [hpos, DSA.decodeLoop]
  · intro payload codes hlen hover
    have h : payload ≠ [] := by intro h; rw [h] at hlen; simp at hlen
    have hlen' : (payload.drop 8).length = payload.length - 8 := by simp
    have hpos : 0 < bitsToNat (payload.take 8) := by omega
    have htake : (payload.drop 8).take ((payload.drop 8).length - bitsToNat (payload.take 8)) = [] := by
      have h0 : (payload.drop 8).length - bitsToNat (payload.take 8) = 0 := by omega
      rw [h0]
      rfl
    simp only [DSA.huffman_decoding, hne payload h, Bool.false_eq_true, if_false, hpos, if_pos,
      htake]
    rfl

/-- C4 witness: the amended behaviour at concrete inputs — a 3-bit payload and
a payload declaring 200 padding bits with only 8 remaining, both accepted. -/
theorem decode_no_padding_validation_witness :
    ([false, true, false] : BitString) ≠ []
      ∧ DSA.huffman_decoding [false, true, false] [('a', [false])] = some []
      ∧ 8 ≤ (natToBits 8 200 ++ List.replicate 8 false).length
      ∧ (natToBits 8 200 ++ List.replicate 8 false).length - 8
          < bitsToNat ((natToBits 8 200 ++ List.replicate 8 false).take 8)
      ∧ DSA.huffman_decoding (natToBits 8 200 ++ List.replicate 8 false) [('a', [false])]
          = some [] :=
  ⟨by decide,
   decode_no_padding_validation.2.1 [false, true, false] [('a', [false])] (by decide) (by decide),
   by decide, by decide,
   decode_no_padding_validation.2.2.1 (natToBits 8 200 ++ List.replicate 8 false)
     [('a', [false])] (by decide) (by decide)⟩

/-- Decoding a payload with an all-zero padding header is decoding its body. -/
theorem huffman_decoding_zero_header (v : BitString) (codes : CodeMap) :
    DSA.huffman_decoding (natToBits 8 0 ++ v) codes = some (Final.decode_text v codes) := by
  have htake : (natToBits 8 0 ++ v).take 8 = natToBits 8 0 := List.take_left' (natToBits_length 8 0)
  have hdrop : (natToBits 8 0 ++ v).drop 8 = v := List.drop_left' (natToBits_length 8 0)
  have hne : (natToBits 8 0).isEmpty = false := by
    simp [List.isEmpty_iff, natToBits_ne_nil]
  simp only [DSA.huffman_decoding, htake, hdrop, hne, Bool.false_eq_true, if_false]
  rw [bitsToNat_natToBits (by norm_num)]
  simp only [Nat.lt_irrefl, if_false, Final.decode_text, decodeLoop_eq]

/-- The inverse map built from a two-entry dict whose values coincide keeps
only the later symbol. -/
theorem buildReverse_pair (c1 c2 : Char) (v : BitString) :
    buildReverse [(c1, v), (c2, v)] = [(v, c2)] := by
  simp [buildReverse, alInsert]

/-- C5 counterexample.  With the code map `{'a': "0", 'b': "0"}`, in which two
distinct symbols share a bit-string, decoding the payload `"00000000" + "0"`
does not fail: it returns "b". -/
theorem decode_accepts_ambiguous_map :
    DSA.huffman_decoding (natToBits 8 0 ++ [false]) [('a', [false]), ('b', [false])]
      = some ['b'] := by
  decide

/-- C5 amended.  Neither decoder checks the code map for duplicate bit-strings:
the dict comprehension building the inverse map lets later entries overwrite
earlier ones, so for a map binding two symbols to the same code the decode
succeeds and emits the symbol inserted last. -/
theorem duplicate_code_last_wins (c1 c2 : Char) (v : BitString) (hv : v ≠ []) :
    Final.decode_text v [(c1, v), (c2, v)] = [c2]
      ∧ DSA.huffman_decoding (natToBits 8 0 ++ v) [(c1, v), (c2, v)] = some [c2] := by
  have hm : alGet v [(v, c2)] = some c2 := by simp [alGet]
  have hp : ∀ p : BitString, p ≠ [] → p <+: v → p ≠ v → alGet p [(v, c2)] = none := by
    intro p _ _ hne
    simp only [alGet]
    rw [if_neg (fun h => hne h.symm)]
  have h := decodeLoop_scan [(v, c2)] c2 v [] hm hp v [] rfl hv
  simp only [List.append_nil] at h
  have hdec : Final.decode_text v [(c1, v), (c2, v)] = [c2] := by
    rw [Final.decode_text, buildReverse_pair, h]
    rfl
  exact ⟨hdec, by rw [huffman_decoding_zero_header, hdec]⟩

/-- C5 witness: the amended behaviour at the concrete shared code "10". -/
theorem duplicate_code_last_wins_witness :
    ([true, false] : BitString) ≠ []
      ∧ Final.decode_text [true, false] [('a', [true, false]), ('b', [true, false])] = ['b']
      ∧ DSA.huffman_decoding (natToBits 8 0 ++ [true, false])
          [('a', [true, false]), ('b', [true, false])] = some ['b'] :=
  ⟨by decide,
   (duplicate_code_last_wins 'a' 'b' [true, false] (by decide)).1,
   (duplicate_code_last_wins 'a' 'b' [true, false] (by decide)).2⟩

/-- C6 counterexample.  With code map `{'a': "00"}` and unpadded body "000",
decoding emits "a", leaves the non-empty unmatched prefix "0", and returns
"a" instead of failing. -/
theorem decode_discards_leftover :
    DSA.huffman_decoding (natToBits 8 0 ++ [false, false, false]) [('a', [false, false])]
      = some ['a'] := by
  decide

/-- C6 amended.  When the walk ends with a non-empty unmatched prefix, both
decoders silently discard it and return the symbols emitted so far: an odd
run of 2k+1 zeros against the code map `{'a': "00"}` decodes to exactly k
copies of "a", the trailing zero being dropped. -/
theorem leftover_bits_dropped (k : Nat) :
    Final.decode_text (List.replicate (2 * k + 1) false) [('a', [false, false])]
        = List.replicate k 'a'
      ∧ DSA.huffman_decoding (natToBits 8 0 ++ List.replicate (2 * k + 1) false)
          [('a', [false, false])] = some (List.replicate k 'a') := by
  have hloop : ∀ n : Nat,
      Final.decodeLoop [([false, false], 'a')] [] (List.replicate (2 * n + 1) false)
        = List.replicate n 'a' := by
    intro n
    induction n with
    | zero => rfl
    | succ m ih =>
        have hm : alGet ([false, false] : BitString) [([false, false], 'a')] = some 'a' := by
          decide
        have hp : ∀ p : BitString, p ≠ [] → p <+: [false, false] → p ≠ [false, false] →
            alGet p [([false, false], 'a')] = none := by
          intro p _ _ hne2
          simp only [alGet]
          rw [if_neg (fun h => hne2 h.symm)]
        have harith : 2 * (m + 1) + 1 = (2 * m + 1) + 1 + 1 := by ring
        rw [harith, List.replicate_succ, List.replicate_succ]
        have hshape : (false :: false :: List.replicate (2 * m + 1) false : BitString)
            = [false, false] ++ List.replicate (2 * m + 1) false := rfl
        rw [hshape,
          decodeLoop_scan [([false, false], 'a')] 'a' [false, false]
            (List.replicate (2 * m + 1) false) hm hp [false, false] [] rfl (by decide),
          ih, List.replicate_succ]
  have hdec : Final.decode_text (List.replicate (2 * k + 1) false) [('a', [false, false])]
      = List.replicate k 'a' := by
    rw [Final.decode_text]
    have hrev : buildReverse [('a', [false, false])] = [([false, false], 'a')] := rfl
    rw [hrev, hloop]
  exact ⟨hdec, by rw [huffman_decoding_zero_header, hdec]⟩

/-! ### List set/getD helpers for the heap proofs -/

theorem getD_set_ne {α : Type} : ∀ (l : List α) {i j : Nat} (a d : α), i ≠ j →
    (l.set i a).getD j d = l.getD j d := by
  intro l
  induction l with
  | nil => intro i j a d _; rfl
  | cons x t ih =>
      intro i j a d hne
      cases i with
      | zero =>
          cases j with
          | zero => exact absurd rfl hne
          | succ m => rfl
      | succ n =>
          cases j with
          | zero => rfl
          | succ m => exact ih a d (fun h => hne (by rw [h]))

theorem set_self_getD {α : Type} : ∀ (l : List α) (j : Nat) (d : α),
    l.set j (l.getD j d) = l := by
  intro l
  induction l with
  | nil => intro j d; rfl
  | cons x t ih =>
      intro j d
      cases j with
      | zero => rfl
      | succ m => simpa using ih m d

theorem getD_append_length {α : Type} : ∀ (l : List α) (a d : α),
    (l ++ [a]).getD l.length d = a := by
  intro l a d
  induction l with
  | nil => rfl
  | cons x t ih => simp only [List.cons_append, List.length_cons, List.getD_cons_succ, ih]

/-- Swapping the new values written at two distinct positions permutes. -/
theorem perm_cons_set {α : Type} : ∀ (t : List α) (k : Nat) (b c : α), k < t.length →
    (b :: t.set k c).Perm (c :: t.set k b) := by
  intro t
  induction t with
  | nil => intro k b c h; simp at h
  | cons x t ih =>
      intro k b c hk
      cases k with
      | zero => exact List.Perm.swap c b t
      | succ m =>
          have hm : m < t.length := by simp at hk; omega
          exact (List.Perm.swap x b _).trans
            ((List.Perm.cons x (ih m b c hm)).trans (List.Perm.swap c x _))

theorem perm_set_set {α : Type} : ∀ (l : List α) (i j : Nat) (b c : α), i < j → j < l.length →
    ((l.set i b).set j c).Perm ((l.set i c).set j b) := by
  intro l
  induction l with
  | nil => intro i j b c _ h; simp at h
  | cons x t ih =>
      intro i j b c hij hj
      cases i with
      | zero =>
          cases j with
          | zero => simp at hij
          | succ m =>
              simp only [List.set_cons_zero, List.set_cons_succ]
              exact perm_cons_set t m b c (by simpa using hj)
      | succ n =>
          cases j with
          | zero => simp at hij
          | succ m =>
              simp only [List.set_cons_succ]
              exact List.Perm.cons x (ih n m b c (by omega) (by simpa using hj))

theorem perm_set_set_ne {α : Type} (l : List α) {i j : Nat} (hne : i ≠ j)
    (hi : i < l.length) (hj : j < l.length) (b c : α) :
    ((l.set i b).set j c).Perm ((l.set i c).set j b) := by
  rcases Nat.lt_or_ge i j with h | h
  · exact perm_set_set l i j b c h hj
  · have hji : j < i := by omega
    rw [List.set_comm b c l hne, List.set_comm c b l hne]
    exact perm_set_set l j i c b hji hi

/-! ### The `heapq` operations permute their input -/

theorem sdGo_perm (newitem : Node) (startpos : Nat) :
    ∀ (fuel : Nat) (heap : List Node) (pos : Nat), pos < heap.length →
      (sdGo newitem startpos fuel heap pos).Perm (heap.set pos newitem) := by
  intro fuel
  induction fuel with
  | zero => intro heap pos _; exact List.Perm.refl _
  | succ f ih =>
      intro heap pos hpos
      simp only [sdGo]
      by_cases hs : startpos < pos
      · rw [if_pos hs]
        by_cases hlt : Node.lt newitem (heap.getD ((pos - 1) / 2) default) = true
        · rw [if_pos hlt]
          have hpar : (pos - 1) / 2 < pos := by omega
          have hpar2 : (pos - 1) / 2 < (heap.set pos (heap.getD ((pos - 1) / 2) default)).length := by
            rw [List.length_set]; omega
          refine (ih _ _ hpar2).trans ?_
          refine (perm_set_set_ne heap (by omega) hpos (by omega) _ newitem).trans ?_
          rw [getD_set_ne heap newitem default (by omega : pos ≠ (pos - 1) / 2) |>.symm,
            set_self_getD]
        · rw [if_neg hlt]
      · rw [if_neg hs]

theorem suGo_spec : ∀ (fuel : Nat) (heap : List Node) (pos : Nat), pos < heap.length →
    (suGo fuel heap pos).2 < (suGo fuel heap pos).1.length
      ∧ (suGo fuel heap pos).1.length = heap.length
      ∧ ∀ x : Node, ((suGo fuel heap pos).1.set (suGo fuel heap pos).2 x).Perm (heap.set pos x) := by
  intro fuel
  induction fuel with
  | zero => intro heap pos h; exact ⟨h, rfl, fun x => List.Perm.refl _⟩
  | succ f ih =>
      intro heap pos hpos
      simp only [suGo]
      by_cases hch : 2 * pos + 1 < heap.length
      · rw [if_pos hch]
        set cp := if 2 * pos + 1 + 1 < heap.length
            ∧ Node.lt (heap.getD (2 * pos + 1) default) (heap.getD (2 * pos + 1 + 1) default) = false
          then 2 * pos + 1 + 1 else 2 * pos + 1 with hcp
        have hcplt : cp < heap.length := by
          rw [hcp]
          split
          · omega
          · exact hch
        have hpcp : pos < cp := by rw [hcp]; split <;> omega
        have hcp2 : cp < (heap.set pos (heap.getD cp default)).length := by
          rw [List.length_set]; exact hcplt
        obtain ⟨ha, hb, hc⟩ := ih (heap.set pos (heap.getD cp default)) cp hcp2
        refine ⟨ha, by rw [hb, List.length_set], fun x => ?_⟩
        refine (hc x).trans ?_
        refine (perm_set_set_ne heap (by omega) hpos hcplt _ x).trans ?_
        rw [getD_set_ne heap x default (by omega : pos ≠ cp) |>.symm, set_self_getD]
      · rw [if_neg hch]
        exact ⟨hpos, rfl, fun x => List.Perm.refl _⟩

theorem siftup_perm (heap : List Node) (pos : Nat) (hpos : pos < heap.length) :
    (siftup heap pos).Perm heap := by
  obtain ⟨ha, hb, hc⟩ := suGo_spec heap.length heap pos hpos
  simp only [siftup]
  have h2 : (suGo heap.length heap pos).2
      < ((suGo heap.length heap pos).1.set (suGo heap.length heap pos).2
          (heap.getD pos default)).length := by
    rw [List.length_set]; exact ha
  refine (sdGo_perm _ _ _ _ _ h2).trans ?_
  rw [List.set_set]
  exact (hc _).trans (by rw [set_self_getD])

theorem siftup_length (heap : List Node) (pos : Nat) (hpos : pos < heap.length) :
    (siftup heap pos).length = heap.length :=
  (siftup_perm heap pos hpos).length_eq

theorem heappush_perm (heap : List Node) (item : Node) :
    (heappush heap item).Perm (item :: heap) := by
  simp only [heappush, siftdown]
  rw [getD_append_length]
  have hl : heap.length < (heap ++ [item]).length := by simp
  refine (sdGo_perm _ _ _ _ _ hl).trans ?_
  rw [show (heap ++ [item]).set heap.length item
      = (heap ++ [item]).set heap.length ((heap ++ [item]).getD heap.length item) from by
        rw [getD_append_length],
    set_self_getD]
  exact List.perm_append_singleton item heap

theorem heappop_perm : ∀ (heap : List Node) (x : Node) (h2 : List Node),
    heappop heap = some (x, h2) → (x :: h2).Perm heap := by
  intro heap x h2 hpop
  cases heap with
  | nil => simp [heappop] at hpop
  | cons y ys =>
      simp only [heappop] at hpop
      generalize hg : (y :: ys).getLast (List.cons_ne_nil y ys) = g at hpop
      have hsplit : (y :: ys).dropLast ++ [g] = y :: ys := by
        rw [← hg]
        exact List.dropLast_append_getLast (List.cons_ne_nil y ys)
      cases hdrop : (y :: ys).dropLast with
      | nil =>
          rw [hdrop] at hpop hsplit
          simp only [Option.some.injEq, Prod.mk.injEq] at hpop
          obtain ⟨rfl, rfl⟩ := hpop
          rw [← hsplit]
          exact List.Perm.refl _
      | cons r0 rtail =>
          rw [hdrop] at hpop hsplit
          simp only [Option.some.injEq, Prod.mk.injEq] at hpop
          obtain ⟨rfl, rfl⟩ := hpop
          have hsp : (siftup ((r0 :: rtail).set 0 g) 0).Perm ((r0 :: rtail).set 0 g) :=
            siftup_perm _ 0 (by simp)
          refine (List.Perm.cons r0 hsp).trans ?_
          rw [List.set_cons_zero, ← hsplit]
          exact List.Perm.cons r0 (List.perm_append_singleton _ _).symm

theorem heapifyFrom_perm : ∀ (i : Nat) (heap : List Node), i ≤ heap.length →
    (heapifyFrom i heap).Perm heap := by
  intro i
  induction i with
  | zero => intro heap _; exact List.Perm.refl _
  | succ n ih =>
      intro heap h
      have hn : n < heap.length := by omega
      have hsp := siftup_perm heap n hn
      exact (ih (siftup heap n) (by rw [hsp.length_eq]; omega)).trans hsp

theorem heapify_perm (x : List Node) : (heapify x).Perm x :=
  heapifyFrom_perm (x.length / 2) x (Nat.div_le_self _ _)

theorem heappop_isSome : ∀ heap : List Node, heap ≠ [] →
    ∃ x h2, heappop heap = some (x, h2) := by
  intro heap h
  cases heap with
  | nil => exact absurd rfl h
  | cons y ys =>
      simp only [heappop]
      cases hdrop : (y :: ys).dropLast with
      | nil => exact ⟨_, _, rfl⟩
      | cons r0 rtail => exact ⟨_, _, rfl⟩

/-- One round of the merging loop: pop twice, push the merged node. -/
theorem buildLoopGo_spec : ∀ (fuel : Nat) (heap : List Node), heap ≠ [] →
    heap.length ≤ fuel + 1 →
    ∃ root, buildLoopGo fuel heap = [root] ∧ root.leaves.Perm (heap.flatMap Node.leaves) := by
  intro fuel
  induction fuel with
  | zero =>
      intro heap hne hlen
      cases heap with
      | nil => exact absurd rfl hne
      | cons x t =>
          cases t with
          | nil => exact ⟨x, rfl, by simp⟩
          | cons y t2 => simp at hlen
  | succ f ih =>
      intro heap hne hlen
      by_cases h1 : 1 < heap.length
      · obtain ⟨left, hq1, hpop1⟩ := heappop_isSome heap hne
        have hperm1 := heappop_perm heap left hq1 hpop1
        have hlen1 : hq1.length + 1 = heap.length := by
          have := hperm1.length_eq
          simpa using this
        have hne1 : hq1 ≠ [] := by
          intro h
          rw [h] at hlen1
          simp at hlen1
          omega
        obtain ⟨right, hq2, hpop2⟩ := heappop_isSome hq1 hne1
        have hperm2 := heappop_perm hq1 right hq2 hpop2
        have hlen2 : hq2.length + 1 = hq1.length := by
          have := hperm2.length_eq
          simpa using this
        have hpushperm := heappush_perm hq2 (Node.internal (left.freq + right.freq) left right)
        have hpushlen : (heappush hq2 (Node.internal (left.freq + right.freq) left right)).length
            = hq2.length + 1 := by
          have := hpushperm.length_eq
          simpa using this
        have hne3 : heappush hq2 (Node.internal (left.freq + right.freq) left right) ≠ [] := by
          intro h
          rw [h] at hpushlen
          simp at hpushlen
        have hlen3 : (heappush hq2 (Node.internal (left.freq + right.freq) left right)).length
            ≤ f + 1 := by omega
        obtain ⟨root, hrooteq, hrootperm⟩ := ih _ hne3 hlen3
        refine ⟨root, ?_, ?_⟩
        · simp only [buildLoopGo, if_pos h1, hpop1, hpop2]
          exact hrooteq
        · refine hrootperm.trans ?_
          refine (hpushperm.flatMap_right Node.leaves).trans ?_
          rw [List.flatMap_cons]
          have e1 : (Node.internal (left.freq + right.freq) left right).leaves
              = left.leaves ++ right.leaves := rfl
          rw [e1, List.append_assoc, ← List.flatMap_cons right hq2 Node.leaves]
          refine (List.Perm.append_left left.leaves (hperm2.flatMap_right Node.leaves)).trans ?_
          rw [← List.flatMap_cons left hq1 Node.leaves]
          exact hperm1.flatMap_right Node.leaves
      · cases heap with
        | nil => exact absurd rfl hne
        | cons x t =>
            cases t with
            | nil =>
                refine ⟨x, ?_, by simp⟩
                simp [buildLoopGo]
            | cons y t2 => exact absurd (by simp only [List.length_cons]; omega) h1

theorem buildLoop_spec (heap : List Node) (hne : heap ≠ []) :
    ∃ root, buildLoop heap = [root] ∧ root.leaves.Perm (heap.flatMap Node.leaves) :=
  buildLoopGo_spec heap.length heap hne (by omega)

/-- Any property of nodes preserved by merging holds for every node the loop
can produce. -/
theorem buildLoopGo_mem (P : Node → Prop)
    (hP : ∀ l r, P l → P r → P (Node.internal (l.freq + r.freq) l r)) :
    ∀ (fuel : Nat) (heap : List Node), (∀ n ∈ heap, P n) →
      ∀ n ∈ buildLoopGo fuel heap, P n := by
  intro fuel
  induction fuel with
  | zero => intro heap h n hn; exact h n hn
  | succ f ih =>
      intro heap h n hn
      by_cases h1 : 1 < heap.length
      · cases hpop1 : heappop heap with
        | none =>
            simp only [buildLoopGo, if_pos h1, hpop1] at hn
            exact h n hn
        | some pr1 =>
            obtain ⟨left, hq1⟩ := pr1
            have hperm1 := heappop_perm heap left hq1 hpop1
            cases hpop2 : heappop hq1 with
            | none =>
                simp only [buildLoopGo, if_pos h1, hpop1, hpop2] at hn
                exact h n (hperm1.mem_iff.1 (by simp [hn]))
            | some pr2 =>
                obtain ⟨right, hq2⟩ := pr2
                have hperm2 := heappop_perm hq1 right hq2 hpop2
                have hleft : P left := h left (hperm1.mem_iff.1 (List.mem_cons_self left hq1))
                have hrin1 : right ∈ hq1 := hperm2.mem_iff.1 (List.mem_cons_self right hq2)
                have hright : P right := h right (hperm1.mem_iff.1 (List.mem_cons_of_mem left hrin1))
                have hnew : ∀ m ∈ heappush hq2 (Node.internal (left.freq + right.freq) left right),
                    P m := by
                  intro m hm
                  have hm2 := (heappush_perm hq2 _).mem_iff.1 hm
                  rcases List.mem_cons.1 hm2 with rfl | hm3
                  · exact hP left right hleft hright
                  · have hmin1 : m ∈ hq1 := hperm2.mem_iff.1 (List.mem_cons_of_mem right hm3)
                    exact h m (hperm1.mem_iff.1 (List.mem_cons_of_mem left hmin1))
                simp only [buildLoopGo, if_pos h1, hpop1, hpop2] at hn
                exact ih _ hnew n hn
      · simp only [buildLoopGo, if_neg h1] at hn
        exact h n hn

/-- The heapified leaf list of a frequency table carries exactly its keys. -/
theorem flatMap_leaves_map_leaf (ft : List (Char × Nat)) :
    (ft.map fun p => Node.leaf p.1 p.2).flatMap Node.leaves = ft.map Prod.fst := by
  induction ft with
  | nil => rfl
  | cons p t ih => simp [Node.leaves, ih]

/-- For a non-empty frequency table the builder returns a root whose leaf
characters are a permutation of the table's keys. -/
theorem build_huffman_tree_spec (ft : List (Char × Nat)) (hne : ft ≠ []) :
    ∃ root, Final.build_huffman_tree ft = some root
      ∧ root.leaves.Perm (ft.map Prod.fst) := by
  have hisE : ft.isEmpty = false := by simp [List.isEmpty_iff, hne]
  have hperm0 : (heapify (ft.map fun p => Node.leaf p.1 p.2)).Perm
      (ft.map fun p => Node.leaf p.1 p.2) := heapify_perm _
  have hne0 : heapify (ft.map fun p => Node.leaf p.1 p.2) ≠ [] := by
    intro h
    have hl := hperm0.length_eq
    rw [h] at hl
    simp only [List.length_nil, List.length_map] at hl
    exact hne (List.length_eq_zero.1 hl.symm)
  obtain ⟨root, heq, hpermL⟩ := buildLoop_spec _ hne0
  refine ⟨root, ?_, ?_⟩
  · simp only [Final.build_huffman_tree, hisE, Bool.false_eq_true, if_false, heq]
    rfl
  · refine hpermL.trans ?_
    refine (hperm0.flatMap_right Node.leaves).trans ?_
    rw [flatMap_leaves_map_leaf]

/-- The two builders agree on every input. -/
theorem build_huffman_tree_eq (ft : List (Char × Nat)) :
    DSA.build_huffman_tree ft = Final.build_huffman_tree ft := by
  cases ft with
  | nil => rfl
  | cons p t => rfl

/-- C8.  The tree builder returns nothing for an empty frequency table; for a
one-entry table it returns that leaf itself (no internal node is created); and
every internal node it creates stores the sum of its two children's
frequencies.  Both files' builders are covered (they agree on all inputs). -/
theorem builder_contract :
    (Final.build_huffman_tree [] = none ∧ DSA.build_huffman_tree [] = none)
      ∧ (∀ (c : Char) (n : Nat),
          Final.build_huffman_tree [(c, n)] = some (Node.leaf c n)
            ∧ DSA.build_huffman_tree [(c, n)] = some (Node.leaf c n))
      ∧ ∀ (ft : List (Char × Nat)) (root : Node),
          Final.build_huffman_tree ft = some root → root.freqOk = true := by
  have hsingle : ∀ (c : Char) (n : Nat),
      Final.build_huffman_tree [(c, n)] = some (Node.leaf c n) := by
    intro c n
    simp [Final.build_huffman_tree, heapify, heapifyFrom, buildLoop, buildLoopGo]
  refine ⟨⟨rfl, rfl⟩, fun c n => ⟨hsingle c n, ?_⟩, ?_⟩
  · rw [build_huffman_tree_eq]
    exact hsingle c n
  intro ft root hroot
  cases ft with
  | nil => simp [Final.build_huffman_tree] at hroot
  | cons p t =>
      have hisE : ((p :: t) : List (Char × Nat)).isEmpty = false := rfl
      simp only [Final.build_huffman_tree, hisE, Bool.false_eq_true, if_false] at hroot
      have hmem : root ∈ buildLoop (heapify ((p :: t).map fun q => Node.leaf q.1 q.2)) := by
        cases hb : buildLoop (heapify ((p :: t).map fun q => Node.leaf q.1 q.2)) with
        | nil => rw [hb] at hroot; simp at hroot
        | cons x xs =>
            rw [hb] at hroot
            simp only [List.head?_cons, Option.some.injEq] at hroot
            rw [← hroot]
            exact List.mem_cons_self x xs
      have hinit : ∀ m ∈ heapify ((p :: t).map fun q => Node.leaf q.1 q.2),
          m.freqOk = true := by
        intro m hm
        have hm2 := (heapify_perm _).mem_iff.1 hm
        obtain ⟨q, _, rfl⟩ := List.mem_map.1 hm2
        rfl
      unfold buildLoop at hmem
      exact buildLoopGo_mem (fun nd => nd.freqOk = true)
        (fun l r hl hr => by simp [Node.freqOk, hl, hr]) _ _ hinit root hmem

/-- C8 witness: the contract instantiated on the table {a:1, b:2}, whose tree
is one internal node over the two leaves and satisfies the frequency-sum
check. -/
theorem builder_contract_witness :
    Final.build_huffman_tree [('a', 1), ('b', 2)]
        = some (Node.internal 3 (Node.leaf 'a' 1) (Node.leaf 'b' 2))
      ∧ (Node.internal 3 (Node.leaf 'a' 1) (Node.leaf 'b' 2)).freqOk = true :=
  ⟨by decide,
   builder_contract.2.2 [('a', 1), ('b', 2)]
     (Node.internal 3 (Node.leaf 'a' 1) (Node.leaf 'b' 2)) (by decide)⟩

/-! ### Association-list (Python dict) lemmas -/

theorem alInsert_of_notMem {κ ν : Type} [DecidableEq κ] (k : κ) (v : ν) :
    ∀ m : List (κ × ν), k ∉ m.map Prod.fst → alInsert k v m = m ++ [(k, v)] := by
  intro m
  induction m with
  | nil => intro _; rfl
  | cons e rest ih =>
      intro h
      simp only [List.map_cons, List.mem_cons] at h
      push_neg at h
      simp only [alInsert]
      rw [if_neg (fun hh => h.1 hh.symm), ih h.2]
      rfl

theorem map_fst_alInsert_mem {κ ν : Type} [DecidableEq κ] (k : κ) (v : ν) :
    ∀ m : List (κ × ν), k ∈ m.map Prod.fst →
      (alInsert k v m).map Prod.fst = m.map Prod.fst := by
  intro m
  induction m with
  | nil => intro h; simp at h
  | cons e rest ih =>
      intro h
      by_cases he : e.1 = k
      · simp only [alInsert]
        rw [show (e.1, e.2) = e from rfl] at *
        cases e with
        | mk k2 v2 =>
            simp only at he
            simp [alInsert, if_pos he, he]
      · cases e with
        | mk k2 v2 =>
            simp only at he
            simp only [List.map_cons, List.mem_cons] at h
            rcases h with h | h
            · exact absurd h.symm he
            · simp [alInsert, if_neg he, ih h]

theorem nodup_map_fst_alInsert {κ ν : Type} [DecidableEq κ] (k : κ) (v : ν)
    (m : List (κ × ν)) (h : (m.map Prod.fst).Nodup) :
    ((alInsert k v m).map Prod.fst).Nodup := by
  by_cases hk : k ∈ m.map Prod.fst
  · rw [map_fst_alInsert_mem k v m hk]
    exact h
  · rw [alInsert_of_notMem k v m hk]
    simp only [List.map_append, List.map_cons, List.map_nil]
    simp [List.nodup_append, h, hk]

theorem mem_alInsert {κ ν : Type} [DecidableEq κ] (k : κ) (v : ν) :
    ∀ (m : List (κ × ν)) (e : κ × ν), e ∈ alInsert k v m → e = (k, v) ∨ e ∈ m := by
  intro m
  induction m with
  | nil => intro e he; simp [alInsert] at he; exact Or.inl he
  | cons e2 rest ih =>
      intro e he
      cases e2 with
      | mk k2 v2 =>
          simp only [alInsert] at he
          by_cases hk : k2 = k
          · rw [if_pos hk] at he
            rcases List.mem_cons.1 he with h | h
            · exact Or.inl h
            · exact Or.inr (List.mem_cons_of_mem _ h)
          · rw [if_neg hk] at he
            rcases List.mem_cons.1 he with h | h
            · exact Or.inr (by simp [h])
            · rcases ih e h with h2 | h2
              · exact Or.inl h2
              · exact Or.inr (List.mem_cons_of_mem _ h2)

theorem alGet_mem {κ ν : Type} [DecidableEq κ] (k : κ) (v : ν) :
    ∀ m : List (κ × ν), alGet k m = some v → (k, v) ∈ m := by
  intro m
  induction m with
  | nil => intro h; simp [alGet] at h
  | cons e rest ih =>
      cases e with
      | mk k2 v2 =>
          intro h
          simp only [alGet] at h
          by_cases hk : k2 = k
          · rw [if_pos hk] at h
            simp only [Option.some.injEq] at h
            subst hk
            subst h
            exact List.mem_cons_self _ _
          · rw [if_neg hk] at h
            exact List.mem_cons_of_mem _ (ih h)

theorem alGet_of_mem_nodup {κ ν : Type} [DecidableEq κ] (k : κ) (v : ν) :
    ∀ m : List (κ × ν), (m.map Prod.fst).Nodup → (k, v) ∈ m → alGet k m = some v := by
  intro m
  induction m with
  | nil => intro _ h; simp at h
  | cons e rest ih =>
      cases e with
      | mk k2 v2 =>
          intro hnd hmem
          simp only [List.map_cons, List.nodup_cons] at hnd
          rcases List.mem_cons.1 hmem with h | h
          · simp only [Prod.mk.injEq] at h
            simp [alGet, h.1, h.2]
          · have hk : k2 ≠ k := by
              intro hkk
              subst hkk
              exact hnd.1 (List.mem_map.2 ⟨(k2, v), h, rfl⟩)
            simp [alGet, hk, ih hnd.2 h]

theorem alGet_eq_none {κ ν : Type} [DecidableEq κ] (k : κ) :
    ∀ m : List (κ × ν), k ∉ m.map Prod.fst → alGet k m = none := by
  intro m
  induction m with
  | nil => intro _; rfl
  | cons e rest ih =>
      cases e with
      | mk k2 v2 =>
          intro h
          simp only [List.map_cons, List.mem_cons] at h
          push_neg at h
          have hk : ¬ k2 = k := fun hh => h.1 hh.symm
          simp [alGet, hk, ih h.2]

/-! ### Leaf paths of a tree -/

theorem paths_map_fst (T : Node) : T.paths.map Prod.fst = T.leaves := by
  induction T with
  | leaf c f => rfl
  | internal f l r ihl ihr =>
      simp only [Node.paths, Node.leaves, List.map_append, List.map_map]
      rw [show List.map (Prod.fst ∘ fun p => (p.1, false :: p.2)) l.paths
            = List.map Prod.fst l.paths from List.map_congr_left (fun a _ => rfl),
        show List.map (Prod.fst ∘ fun p => (p.1, true :: p.2)) r.paths
            = List.map Prod.fst r.paths from List.map_congr_left (fun a _ => rfl),
        ihl, ihr]

theorem paths_ne_nil_internal (f : Nat) (l r : Node) :
    ∀ e ∈ (Node.internal f l r).paths, e.2 ≠ [] := by
  intro e he
  simp only [Node.paths, List.mem_append, List.mem_map] at he
  rcases he with ⟨p, _, rfl⟩ | ⟨p, _, rfl⟩ <;> simp

/-- Paths of distinct leaves are never prefixes of one another. -/
theorem paths_pairwise (T : Node) :
    T.paths.Pairwise (fun a b => ¬ (a.2 <+: b.2) ∧ ¬ (b.2 <+: a.2)) := by
  induction T with
  | leaf c f => simp [Node.paths]
  | internal f l r ihl ihr =>
      simp only [Node.paths]
      rw [List.pairwise_append]
      refine ⟨?_, ?_, ?_⟩
      · rw [List.pairwise_map]
        refine ihl.imp ?_
        intro a b hab
        simpa [List.cons_prefix_cons] using hab
      · rw [List.pairwise_map]
        refine ihr.imp ?_
        intro a b hab
        simpa [List.cons_prefix_cons] using hab
      · intro a ha b hb
        obtain ⟨pa, _, rfl⟩ := List.mem_map.1 ha
        obtain ⟨pb, _, rfl⟩ := List.mem_map.1 hb
        simp [List.cons_prefix_cons]

/-! ### Characterising `generate_codes` -/

theorem generate_codes_aux_entries (T : Node) :
    ∀ (pre : BitString) (codes : CodeMap) (e : Char × BitString),
      e ∈ Final.generate_codes_aux T pre codes →
      e ∈ codes ∨ ∃ p, (e.1, p) ∈ T.paths
        ∧ e.2 = (if (pre ++ p).isEmpty then [false] else pre ++ p) := by
  induction T with
  | leaf c f =>
      intro pre codes e he
      rcases mem_alInsert _ _ codes e he with h | h
      · refine Or.inr ⟨[], by simp [Node.paths, h], ?_⟩
        rw [h]
        simp
      · exact Or.inl h
  | internal f l r ihl ihr =>
      intro pre codes e he
      simp only [Final.generate_codes_aux] at he
      rcases ihr _ _ e he with h | ⟨p, hp, hv⟩
      · rcases ihl _ _ e h with h2 | ⟨p, hp, hv⟩
        · exact Or.inl h2
        · refine Or.inr ⟨false :: p, ?_, ?_⟩
          · simp only [Node.paths, List.mem_append, List.mem_map]
            exact Or.inl ⟨(e.1, p), hp, rfl⟩
          · rw [hv, List.append_assoc]
            rfl
      · refine Or.inr ⟨true :: p, ?_, ?_⟩
        · simp only [Node.paths, List.mem_append, List.mem_map]
          exact Or.inr ⟨(e.1, p), hp, rfl⟩
        · rw [hv, List.append_assoc]
          rfl

theorem generate_codes_aux_keys_nodup (T : Node) :
    ∀ (pre : BitString) (codes : CodeMap), (codes.map Prod.fst).Nodup →
      ((Final.generate_codes_aux T pre codes).map Prod.fst).Nodup := by
  induction T with
  | leaf c f => intro pre codes h; exact nodup_map_fst_alInsert c _ codes h
  | internal f l r ihl ihr =>
      intro pre codes h
      exact ihr _ _ (ihl _ _ h)

/-- Values the generator ever stores are non-empty (the empty accumulated code
is replaced by "0" at a leaf). -/
theorem generate_codes_aux_values_ne_nil (T : Node) :
    ∀ (pre : BitString) (codes : CodeMap), (∀ e ∈ codes, e.2 ≠ []) →
      ∀ e ∈ Final.generate_codes_aux T pre codes, e.2 ≠ [] := by
  induction T with
  | leaf c f =>
      intro pre codes h e he
      rcases mem_alInsert _ _ codes e he with h2 | h2
      · rw [h2]
        by_cases hp : pre.isEmpty <;> simp [hp]
        exact List.isEmpty_eq_false.1 (by simp [hp])
      · exact h e h2
  | internal f l r ihl ihr =>
      intro pre codes h e he
      exact ihr _ _ (ihl _ _ h) e he

/-- With distinct leaf characters the generator produces exactly the path map,
appended entry by entry. -/
theorem generate_codes_aux_eq (T : Node) :
    ∀ (pre : BitString) (codes : CodeMap), T.leaves.Nodup →
      (∀ c ∈ T.leaves, c ∉ codes.map Prod.fst) →
      Final.generate_codes_aux T pre codes
        = codes ++ T.paths.map
            (fun p => (p.1, if (pre ++ p.2).isEmpty then [false] else pre ++ p.2)) := by
  induction T with
  | leaf c f =>
      intro pre codes _ hdis
      simp only [Final.generate_codes_aux, Node.paths, List.map_cons, List.map_nil]
      rw [alInsert_of_notMem c _ codes (hdis c (by simp [Node.leaves]))]
      simp
  | internal f l r ihl ihr =>
      intro pre codes hnd hdis
      simp only [Node.leaves] at hnd
      rw [List.nodup_append] at hnd
      obtain ⟨hndl, hndr, hdisj⟩ := hnd
      have hdisl : ∀ c ∈ l.leaves, c ∉ codes.map Prod.fst := fun c hc =>
        hdis c (by simp [Node.leaves, hc])
      simp only [Final.generate_codes_aux]
      rw [ihl (pre ++ [false]) codes hndl hdisl]
      have hdisr : ∀ c ∈ r.leaves,
          c ∉ (codes ++ l.paths.map (fun p =>
            (p.1, if ((pre ++ [false]) ++ p.2).isEmpty then [false]
              else (pre ++ [false]) ++ p.2))).map Prod.fst := by
        intro c hc
        simp only [List.map_append, List.mem_append, List.map_map]
        push_neg
        refine ⟨hdis c (by simp [Node.leaves, hc]), ?_⟩
        intro hmem
        obtain ⟨p, hp, hpc⟩ := List.mem_map.1 hmem
        have hcl : c ∈ l.leaves := by
          rw [← paths_map_fst l]
          exact List.mem_map.2 ⟨p, hp, by simpa using hpc⟩
        exact hdisj hcl hc
      rw [ihr (pre ++ [true]) _ hndr hdisr]
      rw [List.append_assoc]
      congr 1
      simp only [Node.paths, List.map_append, List.map_map]
      congr 1
      · apply List.map_congr_left
        intro a _
        simp [Function.comp, List.append_assoc]
      · apply List.map_congr_left
        intro a _
        simp [Function.comp, List.append_assoc]

/-- On an internal root with distinct leaf characters the generated code map
is exactly the leaf-path table. -/
theorem generate_codes_internal (f : Nat) (l r : Node)
    (hnd : (Node.internal f l r).leaves.Nodup) :
    Final.generate_codes (some (Node.internal f l r)) [] [] = (Node.internal f l r).paths := by
  show Final.generate_codes_aux (Node.internal f l r) [] [] = _
  rw [generate_codes_aux_eq _ [] [] hnd (by simp)]
  simp only [List.nil_append]
  apply List.map_congr_left ?_ |>.trans (List.map_id _)
  intro p hp
  have hne := paths_ne_nil_internal f l r p hp
  simp [List.isEmpty_iff, hne]

/-- Away from the root (non-empty accumulated code) the two files' generators
agree. -/
theorem dsa_final_generate_codes_aux (T : Node) :
    ∀ (pre : BitString) (codes : CodeMap), pre ≠ [] →
      DSA.generate_codes_aux T pre codes = Final.generate_codes_aux T pre codes := by
  induction T with
  | leaf c f =>
      intro pre codes hpre
      simp only [DSA.generate_codes_aux, Final.generate_codes_aux]
      rw [if_neg (by simp [List.isEmpty_iff, hpre])]
  | internal f l r ihl ihr =>
      intro pre codes _
      simp only [DSA.generate_codes_aux, Final.generate_codes_aux]
      rw [ihl (pre ++ [false]) codes (by simp), ihr (pre ++ [true]) _ (by simp)]

/-! ### Claim theorem: prefix-freedom of generated codes -/

/-- C7.  On every tree with at least two leaves both generators agree and
produce a map whose codes all have length at least 1, in which entries with
distinct symbols have distinct bit-strings, and no bit-string is a prefix
(in particular a proper prefix) of another entry's bit-string. -/
theorem codes_prefix_free (T : Node) (h2 : 2 ≤ T.leaves.length) :
    (∀ e ∈ Final.generate_codes (some T) [] [], 1 ≤ e.2.length)
      ∧ (∀ e ∈ Final.generate_codes (some T) [] [],
          ∀ e2 ∈ Final.generate_codes (some T) [] [],
            e.1 ≠ e2.1 → e.2 ≠ e2.2 ∧ ¬ (e.2 <+: e2.2))
      ∧ DSA.generate_codes (some T) [] [] = Final.generate_codes (some T) [] [] := by
  cases T with
  | leaf c f => simp [Node.leaves] at h2
  | internal f l r =>
      refine ⟨?_, ?_, ?_⟩
      · intro e he
        have hne := generate_codes_aux_values_ne_nil (Node.internal f l r) [] []
          (by simp) e he
        cases h : e.2 with
        | nil => exact absurd h hne
        | cons b t => simp
      · intro e he e2 he2 hnee
        rcases generate_codes_aux_entries _ [] [] e he with h | ⟨p, hp, hv⟩
        · exact absurd h (List.not_mem_nil e)
        rcases generate_codes_aux_entries _ [] [] e2 he2 with h | ⟨p2, hp2, hv2⟩
        · exact absurd h (List.not_mem_nil e2)
        have hpne : p ≠ [] := paths_ne_nil_internal f l r (e.1, p) hp
        have hp2ne : p2 ≠ [] := paths_ne_nil_internal f l r (e2.1, p2) hp2
        have hv' : e.2 = p := by
          rw [hv]
          simp [List.isEmpty_iff, hpne]
        have hv2' : e2.2 = p2 := by
          rw [hv2]
          simp [List.isEmpty_iff, hp2ne]
        have hsym : Symmetric (fun a b : Char × BitString =>
            ¬ (a.2 <+: b.2) ∧ ¬ (b.2 <+: a.2)) := fun a b hab => ⟨hab.2, hab.1⟩
        have hneq : ((e.1, p) : Char × BitString) ≠ (e2.1, p2) := by
          intro hh
          exact hnee (by simpa using congrArg Prod.fst hh)
        have hmut := (paths_pairwise (Node.internal f l r)).forall hsym hp hp2 hneq
        rw [hv', hv2']
        refine ⟨?_, hmut.1⟩
        intro hh
        refine hmut.1 ?_
        rw [hh]
      · show DSA.generate_codes_aux (Node.internal f l r) [] []
            = Final.generate_codes_aux (Node.internal f l r) [] []
        simp only [DSA.generate_codes_aux, Final.generate_codes_aux]
        rw [dsa_final_generate_codes_aux l ([] ++ [false]) [] (by simp),
          dsa_final_generate_codes_aux r ([] ++ [true]) _ (by simp)]

/-- C7 witness: the contract on the two-leaf tree for {a:1, b:1}. -/
theorem codes_prefix_free_witness :
    2 ≤ (Node.internal 2 (Node.leaf 'a' 1) (Node.leaf 'b' 1)).leaves.length
      ∧ ((∀ e ∈ Final.generate_codes (some (Node.internal 2 (Node.leaf 'a' 1) (Node.leaf 'b' 1))) [] [],
            1 ≤ e.2.length)
        ∧ (∀ e ∈ Final.generate_codes (some (Node.internal 2 (Node.leaf 'a' 1) (Node.leaf 'b' 1))) [] [],
            ∀ e2 ∈ Final.generate_codes (some (Node.internal 2 (Node.leaf 'a' 1) (Node.leaf 'b' 1))) [] [],
              e.1 ≠ e2.1 → e.2 ≠ e2.2 ∧ ¬ (e.2 <+: e2.2))
        ∧ DSA.generate_codes (some (Node.internal 2 (Node.leaf 'a' 1) (Node.leaf 'b' 1))) [] []
            = Final.generate_codes (some (Node.internal 2 (Node.leaf 'a' 1) (Node.leaf 'b' 1))) [] []) :=
  ⟨by decide, codes_prefix_free (Node.internal 2 (Node.leaf 'a' 1) (Node.leaf 'b' 1)) (by decide)⟩

/-! ### The frequency table's keys -/

theorem map_fst_alIncr {κ : Type} [DecidableEq κ] (k : κ) :
    ∀ m : List (κ × Nat), (alIncr k m).map Prod.fst
      = if k ∈ m.map Prod.fst then m.map Prod.fst else m.map Prod.fst ++ [k] := by
  intro m
  induction m with
  | nil => simp [alIncr]
  | cons e rest ih =>
      cases e with
      | mk k2 v2 =>
          by_cases hk : k2 = k
          · subst hk
            simp [alIncr]
          · have hk2 : ¬ k = k2 := fun h => hk h.symm
            simp only [alIncr, if_neg hk, List.map_cons, ih, List.mem_cons]
            by_cases hmem : k ∈ rest.map Prod.fst
            · simp [hmem, hk2]
            · simp [hmem, hk2]

theorem foldl_alIncr_keys_nodup :
    ∀ (S : List Char) (acc : List (Char × Nat)), (acc.map Prod.fst).Nodup →
      ((S.foldl (fun freq ch => alIncr ch freq) acc).map Prod.fst).Nodup := by
  intro S
  induction S with
  | nil => intro acc h; exact h
  | cons c S ih =>
      intro acc h
      refine ih (alIncr c acc) ?_
      rw [map_fst_alIncr]
      by_cases hmem : c ∈ acc.map Prod.fst
      · simpa [hmem] using h
      · simp [hmem, List.nodup_append, h]

theorem foldl_alIncr_keys_mem :
    ∀ (S : List Char) (acc : List (Char × Nat)) (c : Char),
      (c ∈ (S.foldl (fun freq ch => alIncr ch freq) acc).map Prod.fst
        ↔ c ∈ acc.map Prod.fst ∨ c ∈ S) := by
  intro S
  induction S with
  | nil => intro acc c; simp
  | cons c2 S ih =>
      intro acc c
      rw [List.foldl_cons, ih (alIncr c2 acc) c, map_fst_alIncr]
      by_cases hmem : c2 ∈ acc.map Prod.fst
      · simp only [if_pos hmem, List.mem_cons]
        constructor
        · rintro (h | h)
          · exact Or.inl h
          · exact Or.inr (Or.inr h)
        · rintro (h | h | h)
          · exact Or.inl h
          · exact Or.inl (h ▸ hmem)
          · exact Or.inr h
      · simp only [if_neg hmem, List.mem_append, List.mem_singleton, List.mem_cons]
        tauto

theorem bft_keys_nodup (S : List Char) :
    ((Final.build_frequency_table S).map Prod.fst).Nodup :=
  foldl_alIncr_keys_nodup S [] (by simp)

theorem bft_keys_mem (S : List Char) (c : Char) :
    c ∈ (Final.build_frequency_table S).map Prod.fst ↔ c ∈ S := by
  rw [Final.build_frequency_table, foldl_alIncr_keys_mem S [] c]
  simp

theorem bft_ne_nil (S : List Char) (h : S ≠ []) : Final.build_frequency_table S ≠ [] := by
  cases S with
  | nil => exact absurd rfl h
  | cons c S2 =>
      intro hft
      have := (bft_keys_mem (c :: S2) c).2 (List.mem_cons_self c S2)
      rw [hft] at this
      simp at this

/-! ### The inverse map under injective codes -/

theorem foldl_alInsert_swap :
    ∀ (m : CodeMap) (acc : List (BitString × Char)),
      (m.map Prod.snd).Nodup → (∀ e ∈ m, e.2 ∉ acc.map Prod.fst) →
      m.foldl (fun rev p => alInsert p.2 p.1 rev) acc = acc ++ m.map (fun p => (p.2, p.1)) := by
  intro m
  induction m with
  | nil => intro acc _ _; simp
  | cons e rest ih =>
      intro acc hnd hdis
      simp only [List.map_cons, List.nodup_cons] at hnd
      rw [List.foldl_cons,
        alInsert_of_notMem e.2 e.1 acc (hdis e (List.mem_cons_self e rest)),
        ih (acc ++ [(e.2, e.1)]) hnd.2 ?_]
      · rw [List.append_assoc]
        rfl
      · intro e2 he2
        simp only [List.map_append, List.mem_append, List.map_cons, List.map_nil,
          List.mem_singleton]
        push_neg
        refine ⟨hdis e2 (List.mem_cons_of_mem e he2), ?_⟩
        intro hh
        exact hnd.1 (hh ▸ List.mem_map.2 ⟨e2, he2, rfl⟩)

theorem buildReverse_eq (codes : CodeMap) (h : (codes.map Prod.snd).Nodup) :
    buildReverse codes = codes.map (fun p => (p.2, p.1)) := by
  rw [buildReverse, foldl_alInsert_swap codes [] h (by simp)]
  rfl

/-! ### Unfolding the encoder -/

theorem encode_text_eq (codes : CodeMap) (w : Char → BitString) :
    ∀ S : List Char, (∀ c ∈ S, alGet c codes = some (w c)) →
      Final.encode_text S codes = some (S.flatMap w) := by
  intro S
  induction S with
  | nil => intro _; rfl
  | cons c S ih =>
      intro h
      have hc := h c (List.mem_cons_self c S)
      have hS := ih (fun c2 hc2 => h c2 (List.mem_cons_of_mem c hc2))
      simp only [Final.encode_text, hc, hS, List.flatMap_cons]

/-- Packaging: once encode and decode of the raw bit-string are known, the
padded round trip follows from `remove_padding_pad`. -/
theorem compress_decompress_of (S : List Char) (enc : BitString)
    (henc : Final.encode_text S (Final.pipeline_codes S) = some enc)
    (hdec : Final.decode_text enc (Final.pipeline_codes S) = S) :
    ∃ payload, Final.compress S = some payload
      ∧ Final.decompress payload (Final.pipeline_codes S) = some S := by
  refine ⟨(Final.pad_encoded enc).1, ?_, ?_⟩
  · show (Final.encode_text S (Final.pipeline_codes S)).map (fun e => (Final.pad_encoded e).1)
        = some (Final.pad_encoded enc).1
    rw [henc]
    rfl
  · rw [Final.decompress, remove_padding_pad]
    show some (Final.decode_text enc (Final.pipeline_codes S)) = some S
    rw [hdec]

/-- A non-empty proper prefix of a one-element list cannot exist. -/
theorem pfx_of_singleton {b : Bool} {p : BitString} (hne : p ≠ [])
    (hpre : p <+: [b]) (hneq : p ≠ [b]) : False := by
  obtain ⟨t, ht⟩ := hpre
  cases p with
  | nil => exact hne rfl
  | cons q qt =>
      simp only [List.cons_append, List.cons.injEq] at ht
      obtain ⟨rfl, ht2⟩ := ht
      have : qt = [] ∧ t = [] := by
        constructor
        · cases qt with
          | nil => rfl
          | cons _ _ => simp at ht2
        · cases qt with
          | nil => simpa using ht2
          | cons _ _ => simp at ht2
      exact hneq (by simp [this.1])

/-! ### Claim theorem: the pipeline round-trips -/

/-- C1.  For every non-empty input: the `Final_CEP.py` pipeline (frequency
table, Huffman tree, code map, encode, pad) succeeds, and stripping the
padding and decoding with the same code map returns exactly the input. -/
theorem pipeline_roundtrip (S : List Char) (hS : S ≠ []) :
    ∃ payload, Final.compress S = some payload
      ∧ Final.decompress payload (Final.pipeline_codes S) = some S := by
  have hnodupK : ((Final.build_frequency_table S).map Prod.fst).Nodup := bft_keys_nodup S
  obtain ⟨root, hbuild, hleafperm⟩ := build_huffman_tree_spec _ (bft_ne_nil S hS)
  have hleafnodup : root.leaves.Nodup := hleafperm.nodup_iff.2 hnodupK
  have hleafmem : ∀ c ∈ S, c ∈ root.leaves := fun c hc =>
    hleafperm.mem_iff.2 ((bft_keys_mem S c).2 hc)
  have hcodes2 : Final.pipeline_codes S = Final.generate_codes (some root) [] [] := by
    rw [Final.pipeline_codes, hbuild]
  cases root with
  | leaf c0 f0 =>
      have hallc : ∀ c ∈ S, c = c0 := by
        intro c hc
        simpa [Node.leaves] using hleafmem c hc
      have hcodes3 : Final.pipeline_codes S = [(c0, [false])] := by
        rw [hcodes2]
        rfl
      have hget : ∀ c ∈ S, alGet c (Final.pipeline_codes S) = some [false] := by
        intro c hc
        rw [hcodes3, hallc c hc]
        simp [alGet]
      have henc := encode_text_eq (Final.pipeline_codes S) (fun _ => [false]) S hget
      have hdec : Final.decode_text (S.flatMap fun _ => [false]) (Final.pipeline_codes S) = S := by
        rw [Final.decode_text, hcodes3]
        have hrev : buildReverse [(c0, [false])] = [([false], c0)] := rfl
        rw [hrev]
        apply decodeLoop_flatMap
        intro s hs
        rw [hallc s hs]
        refine ⟨by simp, by simp [alGet], ?_⟩
        intro p hpne hppre hpneq
        exact absurd (pfx_of_singleton hpne hppre hpneq) (by simp)
      exact compress_decompress_of S _ henc hdec
  | internal f0 l0 r0 =>
      have hcodes3 : Final.pipeline_codes S = (Node.internal f0 l0 r0).paths := by
        rw [hcodes2]
        exact generate_codes_internal f0 l0 r0 hleafnodup
      have hkeysnodup : ((Final.pipeline_codes S).map Prod.fst).Nodup := by
        rw [hcodes3, paths_map_fst]
        exact hleafnodup
      have hvals_ne_nil : ∀ e ∈ Final.pipeline_codes S, e.2 ≠ [] := by
        rw [hcodes3]
        exact paths_ne_nil_internal f0 l0 r0
      have hget : ∀ c ∈ S, alGet c (Final.pipeline_codes S)
          = some ((alGet c (Final.pipeline_codes S)).getD []) := by
        intro c hc
        have hcl : c ∈ (Final.pipeline_codes S).map Prod.fst := by
          rw [hcodes3, paths_map_fst]
          exact hleafmem c hc
        obtain ⟨e, he, hec⟩ := List.mem_map.1 hcl
        have : alGet c (Final.pipeline_codes S) = some e.2 := by
          refine alGet_of_mem_nodup c e.2 _ hkeysnodup ?_
          rw [← hec]
          exact he
        rw [this]
        rfl
      set w : Char → BitString := fun c => (alGet c (Final.pipeline_codes S)).getD [] with hw
      have henc := encode_text_eq (Final.pipeline_codes S) w S hget
      have hvaluesnodup : ((Final.pipeline_codes S).map Prod.snd).Nodup := by
        rw [hcodes3]
        refine List.Pairwise.map Prod.snd ?_ (paths_pairwise (Node.internal f0 l0 r0))
        intro a b hab hh
        exact hab.1 (hh ▸ List.prefix_refl _)
      have hrev := buildReverse_eq (Final.pipeline_codes S) hvaluesnodup
      have hrevkeysnodup :
          (((Final.pipeline_codes S).map fun p => (p.2, p.1)).map Prod.fst).Nodup := by
        rw [List.map_map]
        have : (Prod.fst ∘ fun p : Char × BitString => (p.2, p.1)) = Prod.snd := rfl
        rw [this]
        exact hvaluesnodup
      have hdec : Final.decode_text (S.flatMap w) (Final.pipeline_codes S) = S := by
        rw [Final.decode_text, hrev]
        apply decodeLoop_flatMap
        intro s hs
        have hgs := hget s hs
        have hmem : (s, w s) ∈ Final.pipeline_codes S := alGet_mem s (w s) _ hgs
        refine ⟨hvals_ne_nil (s, w s) hmem, ?_, ?_⟩
        · exact alGet_of_mem_nodup (w s) s _ hrevkeysnodup
            (List.mem_map.2 ⟨(s, w s), hmem, rfl⟩)
        · intro p hpne hppre hpneqw
          cases hpc : alGet p ((Final.pipeline_codes S).map fun p => (p.2, p.1)) with
          | none => rfl
          | some c =>
              exfalso
              have hmem2 := alGet_mem p c _ hpc
              obtain ⟨e, hecodes, heq⟩ := List.mem_map.1 hmem2
              simp only [Prod.mk.injEq] at heq
              have hep : e.2 = p := heq.1
              by_cases hee : e = (s, w s)
              · rw [hee] at hep
                exact hpneqw hep.symm
              · have hsym : Symmetric (fun a b : Char × BitString =>
                    ¬ (a.2 <+: b.2) ∧ ¬ (b.2 <+: a.2)) := fun a b hab => ⟨hab.2, hab.1⟩
                have hmut := (paths_pairwise (Node.internal f0 l0 r0)).forall hsym
                  (hcodes3 ▸ hecodes) (hcodes3 ▸ hmem) hee
                exact hmut.1 (hep ▸ hppre)
      exact compress_decompress_of S _ henc hdec

/-- C1 witness: the round trip at the concrete input "ab". -/
theorem pipeline_roundtrip_witness :
    (['a', 'b'] : List Char) ≠ []
      ∧ ∃ payload, Final.compress ['a', 'b'] = some payload
        ∧ Final.decompress payload (Final.pipeline_codes ['a', 'b']) = some ['a', 'b'] :=
  ⟨by decide, pipeline_roundtrip ['a', 'b'] (by decide)⟩

/-- Every code the encode pipeline can hand to `encode_text` is non-empty. -/
theorem pipeline_codes_values_ne_nil (S : List Char) :
    ∀ e ∈ Final.pipeline_codes S, e.2 ≠ [] := by
  rw [Final.pipeline_codes]
  cases hb : Final.build_huffman_tree (Final.build_frequency_table S) with
  | none =>
      intro e he
      simp [Final.generate_codes] at he
  | some T => exact generate_codes_aux_values_ne_nil T [] [] (by simp)

/-! ### Claim theorem: empty input and payload length bounds -/

/-- C9.  Empty input does not crash the encode path: it yields an empty
frequency table, no tree, and a payload that is exactly the 8-bit zero
header; every padded payload has bit length ≥ 8 and divisible by 8, every
payload the pipeline produces for non-empty input has bit length ≥ 9, and
decoding the header-only payload yields the empty sequence under any code
map. -/
theorem empty_input_behaviour :
    Final.build_frequency_table [] = []
      ∧ Final.build_huffman_tree [] = none
      ∧ Final.compress [] = some (List.replicate 8 false)
      ∧ (∀ B : BitString, (Final.pad_encoded B).1.length % 8 = 0
          ∧ 8 ≤ (Final.pad_encoded B).1.length)
      ∧ (∀ (S : List Char) (payload : BitString), S ≠ [] →
          Final.compress S = some payload → 9 ≤ payload.length)
      ∧ ∀ codes : CodeMap, Final.decompress (List.replicate 8 false) codes = some [] := by
  refine ⟨rfl, rfl, by decide, ?_, ?_, ?_⟩
  · intro B
    rw [pad_encoded_eq]
    refine ⟨pad_length_mod B, ?_⟩
    rw [pad_encoded_data_eq]
    simp only [List.length_append, natToBits_length, List.length_replicate]
    omega
  · intro S payload hS hcomp
    rw [show Final.compress S
        = (Final.encode_text S (Final.pipeline_codes S)).map (fun e => (Final.pad_encoded e).1)
      from rfl] at hcomp
    cases henc : Final.encode_text S (Final.pipeline_codes S) with
    | none =>
        rw [henc] at hcomp
        simp at hcomp
    | some enc =>
        rw [henc] at hcomp
        simp only [Option.map_some', Option.some.injEq] at hcomp
        cases S with
        | nil => exact absurd rfl hS
        | cons c S2 =>
            simp only [Final.encode_text] at henc
            cases hg : alGet c (Final.pipeline_codes (c :: S2)) with
            | none =>
                rw [hg] at henc
                simp at henc
            | some wv =>
                rw [hg] at henc
                cases ht : Final.encode_text S2 (Final.pipeline_codes (c :: S2)) with
                | none =>
                    rw [ht] at henc
                    simp at henc
                | some tail =>
                    rw [ht] at henc
                    simp only [Option.some.injEq] at henc
                    have hwv : wv ≠ [] :=
                      pipeline_codes_values_ne_nil (c :: S2) (c, wv) (alGet_mem c wv _ hg)
                    have hlen1 : 1 ≤ enc.length := by
                      rw [← henc]
                      cases wv with
                      | nil => exact absurd rfl hwv
                      | cons b bt => simp
                    rw [← hcomp, pad_encoded_eq, pad_encoded_data_eq]
                    simp only [List.length_append, natToBits_length, List.length_replicate]
                    omega
  · intro codes
    rw [Final.decompress,
      show Final.remove_padding (List.replicate 8 false) = some [] from by decide]
    rfl

/-- C9 witness: the payload-length bound instantiated at the one-character
input "a", whose payload is the 16-bit `00000111 0 0000000`. -/
theorem empty_input_behaviour_witness :
    (['a'] : List Char) ≠ []
      ∧ Final.compress ['a']
          = some [false, false, false, false, false, true, true, true,
              false, false, false, false, false, false, false, false]
      ∧ 9 ≤ ([false, false, false, false, false, true, true, true,
              false, false, false, false, false, false, false, false] : BitString).length :=
  ⟨by decide, by decide,
   empty_input_behaviour.2.2.2.2.1 ['a']
     [false, false, false, false, false, true, true, true,
       false, false, false, false, false, false, false, false] (by decide) (by decide)⟩
